import Mathlib

/-!
Shallow embedding of the todo-list logic of src/src/App.tsx
(larryhudson/vite-todo-list).

Dates are modelled as absolute timestamps counted in minutes; a calendar
day is `minutesPerDay` minutes long, so the calendar day of a timestamp
`t` is `t / minutesPerDay`.  The wall-clock instant `now` is captured
once per operation and passed explicitly, mirroring the `new Date()`
reads in the source.  `tomorrow.setDate(tomorrow.getDate() + 1)` keeps
the time of day and advances the calendar day by one, which in this
model is exactly `now + minutesPerDay`; likewise `+ 7` days is
`now + 7 * minutesPerDay`.

`Array.prototype.sort` is required by ECMAScript to be stable; the
comparator built by `moveItem` returns 0 whenever either argument is
missing from the position map, which makes it inconsistent, and for such
comparators the result is implementation-defined.  We model the sort as
the canonical stable insertion sort (`sortByCompare`): an element is
inserted in front of the first earlier element that compares strictly
greater than it, so elements that compare 0 keep their relative order.
All concrete evaluations below were cross-checked by hand against the
binary-insertion sort used by V8 for short arrays and agree with it.
-/

def minutesPerDay : Nat := 1440

/-- A task record, as the `Todo` interface of App.tsx. -/
structure Todo where
  id : String
  text : String
  completed : Bool
  dueDate : Nat
deriving Repr, DecidableEq

/-- Replace the due date of a task, keeping every other field. -/
def Todo.withDue (t : Todo) (d : Nat) : Todo :=
  ⟨t.id, t.text, t.completed, d⟩

/-- The fields of a task other than its due date. -/
def Todo.stripDue (t : Todo) : String × String × Bool :=
  (t.id, t.text, t.completed)

/-- Calendar day of a timestamp. -/
def dayOf (t : Nat) : Nat := t / minutesPerDay

/-- `isToday` from App.tsx: same calendar day as `now`. -/
def isToday (d now : Nat) : Bool := dayOf d == dayOf now

/-- `isTomorrow` from App.tsx: same calendar day as `now` plus one day. -/
def isTomorrow (d now : Nat) : Bool := dayOf d == dayOf now + 1

/-- `isDueOrOverdue` from App.tsx: due date not after `now`, or due today. -/
def isDueOrOverdue (t : Todo) (now : Nat) : Bool :=
  decide (t.dueDate ≤ now) || isToday t.dueDate now

/-- The three visual groups of the task list. -/
inductive TodoGroup where
  | today
  | tomorrow
  | upcoming
deriving Repr, DecidableEq

/-- Membership predicate of each group, exactly as the three filters in
`moveItem` (and in the render code) of App.tsx. -/
def groupPred (g : TodoGroup) (now : Nat) (t : Todo) : Bool :=
  match g with
  | .today => isDueOrOverdue t now
  | .tomorrow => isTomorrow t.dueDate now
  | .upcoming => !isDueOrOverdue t now && !isTomorrow t.dueDate now

/-- The due date `moveItem` writes into a task dropped into a group:
`today` → `new Date()`, `tomorrow` → one day later, `upcoming` → seven
days later (lines 126-138 of App.tsx). -/
def canonicalDue (g : TodoGroup) (now : Nat) : Nat :=
  match g with
  | .today => now
  | .tomorrow => now + minutesPerDay
  | .upcoming => now + 7 * minutesPerDay

/-- Index normalisation of `Array.prototype.splice`: a negative start
counts back from the end of the array (floored at 0), a start beyond the
end is clamped to the length. -/
def jsSpliceIdx (len : Nat) (k : Int) : Nat :=
  if k < 0 then ((len : Int) + k).toNat else min k.toNat len

/-- `xs.splice(k, 0, x)`: insert `x` at the normalised position. -/
def spliceInsert (xs : List Todo) (k : Int) (x : Todo) : List Todo :=
  let n := jsSpliceIdx xs.length k
  xs.take n ++ x :: xs.drop n

/-- Replace the due date of the `n`-th element satisfying `p` (counting
from 0), leaving everything else unchanged.  This models the in-place
mutation `draggedItem.dueDate = ...`: the dragged object is aliased into
the copied master array, so the master list sees the new due date at the
dragged task's original position. -/
def setDueAtNth (p : Todo → Bool) (n : Nat) (d : Nat) : List Todo → List Todo
  | [] => []
  | t :: ts =>
    if p t then
      if n = 0 then t.withDue d :: ts
      else t :: setDueAtNth p (n - 1) d ts
    else t :: setDueAtNth p n d ts

/-- Index of the last occurrence of `x`, modelling the last-wins
semantics of `new Map(...)` on duplicate keys in `todoPositions`. -/
def lastIdxOf (x : String) : List String → Option Nat
  | [] => none
  | y :: ys =>
    match lastIdxOf x ys with
    | some k => some (k + 1)
    | none => if y = x then some 0 else none

/-- The comparator on ids induced by the position map: `posA - posB`
when both ids are present, 0 otherwise (lines 146-153 of App.tsx). -/
def idCompare (pos : String → Option Nat) (x y : String) : Int :=
  match pos x, pos y with
  | some a, some b => (a : Int) - (b : Int)
  | _, _ => 0

/-- The comparator `moveItem` passes to `newTodos.sort`. -/
def posCompare (pos : String → Option Nat) (a b : Todo) : Int :=
  idCompare pos a.id b.id

/-- Stable insertion into a sorted list: `x` goes in front of the first
element comparing greater or equal, i.e. after every earlier element it
does not strictly precede. -/
def insertSorted (c : Todo → Todo → Int) (x : Todo) : List Todo → List Todo
  | [] => [x]
  | y :: ys => if 0 ≤ c y x then x :: y :: ys else y :: insertSorted c x ys

/-- Stable sort by an integer comparator, modelling the required
stability of `Array.prototype.sort`. -/
def sortByCompare (c : Todo → Todo → Int) : List Todo → List Todo
  | [] => []
  | x :: xs => insertSorted c x (sortByCompare c xs)

/-- The reorder/regroup engine `moveItem` of App.tsx (lines 92-157),
as a pure function of the master list, the move instruction and the
captured wall clock.

Step by step, following the source: the source and destination group
snapshots are two independent `filter` results over the master copy (two
distinct arrays even when the groups coincide); an out-of-bounds
`dragIndex` returns the input unchanged; the dragged task is the
`dragIndex`-th member of the source snapshot; its due date is rewritten
to the canonical date of `toGroup` unconditionally; the (updated)
dragged task is spliced into the destination snapshot at `hoverIndex`
(JavaScript splice index rules); the id → position map is built from
that snapshot with last-wins on duplicate ids; finally the master copy —
which sees the due-date mutation through aliasing — is stably sorted by
mapped positions, ids absent from the map comparing equal to
everything. -/
def moveItem (l : List Todo) (dragIndex hoverIndex : Int)
    (fromGroup toGroup : TodoGroup) (now : Nat) : List Todo :=
  let fromGroupTodos := l.filter (groupPred fromGroup now)
  let toGroupTodos := l.filter (groupPred toGroup now)
  if dragIndex < 0 ∨ (fromGroupTodos.length : Int) ≤ dragIndex then l
  else
    match fromGroupTodos[dragIndex.toNat]? with
    | none => l
    | some draggedItem =>
      let newDue := canonicalDue toGroup now
      let inserted := spliceInsert toGroupTodos hoverIndex (draggedItem.withDue newDue)
      let pos := fun i => lastIdxOf i (inserted.map Todo.id)
      let newTodos := setDueAtNth (groupPred fromGroup now) dragIndex.toNat newDue l
      sortByCompare (posCompare pos) newTodos

/-- `toggleTodo` from App.tsx (lines 258-284), restricted to the list
transformation (the completion-message timer only touches UI state). -/
def toggleTodo (l : List Todo) (i : String) : List Todo :=
  l.map fun t => if t.id = i then ⟨t.id, t.text, !t.completed, t.dueDate⟩ else t

/-- `String.prototype.trim`: strip whitespace from both ends. -/
def jsTrim (s : String) : String :=
  ⟨((s.data.dropWhile Char.isWhitespace).reverse.dropWhile Char.isWhitespace).reverse⟩

/-- `addTodo` from App.tsx (lines 213-221): a blank input is ignored,
otherwise a fresh uncompleted task is appended (the stored text is the
untrimmed input). -/
def addTodo (l : List Todo) (text : String) (newId : String) (due : Nat) : List Todo :=
  if jsTrim text ≠ "" then l ++ [⟨newId, text, false, due⟩] else l

/-- The master list partitioned by the three group predicates and
concatenated in group order, as in the spec's group-order invariant. -/
def partitionConcat (l : List Todo) (now : Nat) : List Todo :=
  l.filter (groupPred .today now) ++ l.filter (groupPred .tomorrow now)
    ++ l.filter (groupPred .upcoming now)

/-! ### Facts about the stable sort -/

theorem insertSorted_perm (c : Todo → Todo → Int) (x : Todo) :
    ∀ l : List Todo, (insertSorted c x l).Perm (x :: l)
  | [] => .refl _
  | y :: ys => by
    rw [insertSorted]
    split
    · exact .refl _
    · exact ((insertSorted_perm c x ys).cons y).trans (List.Perm.swap x y ys)

theorem sortByCompare_perm (c : Todo → Todo → Int) :
    ∀ l : List Todo, (sortByCompare c l).Perm l
  | [] => .refl _
  | x :: xs =>
    (insertSorted_perm c x (sortByCompare c xs)).trans
      ((sortByCompare_perm c xs).cons x)

theorem sortByCompare_eq_self (c : Todo → Todo → Int) :
    ∀ l : List Todo, l.Pairwise (fun a b => 0 ≤ c b a) → sortByCompare c l = l
  | [], _ => rfl
  | x :: xs, h => by
    rw [sortByCompare, sortByCompare_eq_self c xs h.tail]
    cases xs with
    | nil => rfl
    | cons y ys =>
      rw [insertSorted, if_pos]
      exact (List.pairwise_cons.mp h).1 y (by simp)

/-! ### Facts about the aliased due-date update -/

theorem setDueAtNth_length (p : Todo → Bool) (d : Nat) :
    ∀ (l : List Todo) (n : Nat), (setDueAtNth p n d l).length = l.length
  | [], _ => rfl
  | t :: ts, n => by
    rw [setDueAtNth]
    split
    · split
      · simp
      · simpa using setDueAtNth_length p d ts (n - 1)
    · simpa using setDueAtNth_length p d ts n

theorem setDueAtNth_map_id (p : Todo → Bool) (d : Nat) :
    ∀ (l : List Todo) (n : Nat),
      (setDueAtNth p n d l).map Todo.id = l.map Todo.id
  | [], _ => rfl
  | t :: ts, n => by
    rw [setDueAtNth]
    split
    · split
      · simp [Todo.withDue]
      · simpa using setDueAtNth_map_id p d ts (n - 1)
    · simpa using setDueAtNth_map_id p d ts n

theorem setDueAtNth_map_stripDue (p : Todo → Bool) (d : Nat) :
    ∀ (l : List Todo) (n : Nat),
      (setDueAtNth p n d l).map Todo.stripDue = l.map Todo.stripDue
  | [], _ => rfl
  | t :: ts, n => by
    rw [setDueAtNth]
    split
    · split
      · simp [Todo.withDue, Todo.stripDue]
      · simpa using setDueAtNth_map_stripDue p d ts (n - 1)
    · simpa using setDueAtNth_map_stripDue p d ts n

theorem setDueAtNth_mem (p : Todo → Bool) (d : Nat) :
    ∀ (l : List Todo) (n : Nat) (t : Todo),
      (l.filter p)[n]? = some t → t.withDue d ∈ setDueAtNth p n d l
  | [], n, t, h => by simp at h
  | u :: ts, n, t, h => by
    rw [setDueAtNth]
    by_cases hp : p u
    · rw [List.filter_cons_of_pos hp] at h
      rw [if_pos hp]
      cases n with
      | zero =>
        simp only [List.getElem?_cons_zero, Option.some_inj] at h
        subst h
        simp
      | succ m =>
        rw [List.getElem?_cons_succ] at h
        simp only [Nat.succ_ne_zero, if_false]
        exact List.mem_cons_of_mem u (setDueAtNth_mem p d ts m t h)
    · rw [List.filter_cons_of_neg hp] at h
      rw [if_neg hp]
      exact List.mem_cons_of_mem u (setDueAtNth_mem p d ts n t h)

/-! ### Facts about last-wins position lookup -/

theorem lastIdxOf_eq_none_iff (x : String) :
    ∀ u : List String, lastIdxOf x u = none ↔ x ∉ u
  | [] => by simp [lastIdxOf]
  | y :: ys => by
    rw [lastIdxOf]
    cases h : lastIdxOf x ys with
    | some k =>
      have : x ∈ ys := by
        by_contra hx
        rw [(lastIdxOf_eq_none_iff x ys).mpr hx] at h
        exact Option.noConfusion h
      simp [this]
    | none =>
      have hx : x ∉ ys := (lastIdxOf_eq_none_iff x ys).mp h
      by_cases hyx : y = x
      · simp [hyx]
      · simp [hyx, hx, Ne.symm hyx]

theorem lastIdxOf_isSome_of_mem {x : String} :
    ∀ {u : List String}, x ∈ u → ∃ k, lastIdxOf x u = some k := by
  intro u hx
  cases h : lastIdxOf x u with
  | some k => exact ⟨k, rfl⟩
  | none => exact absurd hx ((lastIdxOf_eq_none_iff x u).mp h)

theorem lastIdxOf_lt_length {x : String} :
    ∀ {u : List String} {k : Nat}, lastIdxOf x u = some k → k < u.length := by
  intro u
  induction u with
  | nil => intro k h; simp [lastIdxOf] at h
  | cons y ys ih =>
    intro k h
    rw [lastIdxOf] at h
    cases h2 : lastIdxOf x ys with
    | some m =>
      rw [h2] at h
      cases h
      exact Nat.succ_lt_succ (ih h2)
    | none =>
      rw [h2] at h
      by_cases hyx : y = x
      · rw [if_pos hyx] at h
        cases h
        simp
      · rw [if_neg hyx] at h
        exact Option.noConfusion h

theorem lastIdxOf_append_right {x : String} {v : List String} {k : Nat}
    (h : lastIdxOf x v = some k) :
    ∀ u : List String, lastIdxOf x (u ++ v) = some (u.length + k)
  | [] => by simpa using h
  | y :: ys => by
    rw [List.cons_append, lastIdxOf, lastIdxOf_append_right h ys]
    simp [Nat.succ_add, Nat.add_comm, Nat.add_assoc, Nat.add_left_comm]

theorem lastIdxOf_append_left {x : String} {v : List String}
    (h : lastIdxOf x v = none) :
    ∀ u : List String, lastIdxOf x (u ++ v) = lastIdxOf x u
  | [] => by simpa using h
  | y :: ys => by
    rw [List.cons_append, lastIdxOf, lastIdxOf_append_left h ys, lastIdxOf]

theorem lastIdxOf_head_of_not_mem {x : String} {u : List String} (h : x ∉ u) :
    lastIdxOf x (x :: u) = some 0 := by
  rw [lastIdxOf, (lastIdxOf_eq_none_iff x u).mpr h, if_pos rfl]

theorem lastIdxOf_cons_shift {x y : String} {u : List String} {k : Nat}
    (h : lastIdxOf x u = some k) : lastIdxOf x (y :: u) = some (k + 1) := by
  rw [lastIdxOf, h]

theorem lastIdxOf_mono_of_nodup :
    ∀ u : List String, u.Nodup →
      u.Pairwise (fun a b => ∀ ka kb,
        lastIdxOf a u = some ka → lastIdxOf b u = some kb → ka < kb)
  | [], _ => .nil
  | y :: ys, hnd => by
    have hy : y ∉ ys := (List.nodup_cons.mp hnd).1
    rw [List.pairwise_cons]
    constructor
    · intro b hb ka kb hka hkb
      rw [lastIdxOf_head_of_not_mem hy] at hka
      cases hka
      obtain ⟨m, hm⟩ := lastIdxOf_isSome_of_mem hb
      rw [lastIdxOf_cons_shift hm] at hkb
      cases hkb
      exact Nat.succ_pos m
    · refine (lastIdxOf_mono_of_nodup ys (List.nodup_cons.mp hnd).2).imp_of_mem ?_
      intro a b ha hb hab ka kb hka hkb
      obtain ⟨ma, hma⟩ := lastIdxOf_isSome_of_mem ha
      obtain ⟨mb, hmb⟩ := lastIdxOf_isSome_of_mem hb
      rw [lastIdxOf_cons_shift hma] at hka
      rw [lastIdxOf_cons_shift hmb] at hkb
      cases hka
      cases hkb
      exact Nat.succ_lt_succ (hab ma mb hma hmb)

/-! ### Facts about the group predicates -/

theorem groupPred_disjoint {g1 g2 : TodoGroup} {now : Nat} {t : Todo}
    (hne : g1 ≠ g2) (h1 : groupPred g1 now t = true) :
    groupPred g2 now t = false := by
  cases g1 <;> cases g2 <;>
    simp_all [groupPred, isDueOrOverdue, isToday, isTomorrow, dayOf, minutesPerDay] <;>
    omega

theorem canonicalDue_mem_group (g : TodoGroup) (now : Nat) (t : Todo) :
    groupPred g now (t.withDue (canonicalDue g now)) = true := by
  cases g <;>
    simp [groupPred, canonicalDue, isDueOrOverdue, isToday, isTomorrow, dayOf,
      Todo.withDue, minutesPerDay] <;>
    omega

/-! ### Transferring pairwise order through a sublist -/

theorem pairwise_of_sublist_nodup {S : String → String → Prop} :
    ∀ {u v : List String}, u.Sublist v → v.Nodup → u.Pairwise S →
      (∀ x ∈ v, ∀ y ∈ v, x ∉ u → S x y) →
      (∀ x ∈ v, ∀ y ∈ v, y ∉ u → S x y) →
      v.Pairwise S := by
  intro u v hsub
  induction hsub with
  | slnil =>
    intro _ _ _ _
    exact .nil
  | @cons u2 v2 a hs ih =>
    intro hnd hp hdl hdr
    rw [List.pairwise_cons]
    refine ⟨?_, ?_⟩
    · intro y hy
      have ha : a ∉ u2 := fun hmem => (List.nodup_cons.mp hnd).1 (hs.subset hmem)
      exact hdl a (by simp) y (List.mem_cons_of_mem a hy) ha
    · exact ih (List.nodup_cons.mp hnd).2 hp
        (fun x hx y hy => hdl x (List.mem_cons_of_mem a hx) y (List.mem_cons_of_mem a hy))
        (fun x hx y hy => hdr x (List.mem_cons_of_mem a hx) y (List.mem_cons_of_mem a hy))
  | @cons₂ u2 v2 a hs ih =>
    intro hnd hp hdl hdr
    have hav : a ∉ v2 := (List.nodup_cons.mp hnd).1
    rw [List.pairwise_cons]
    refine ⟨?_, ?_⟩
    · intro y hy
      by_cases hyu : y ∈ u2
      · exact (List.pairwise_cons.mp hp).1 y hyu
      · have hya : y ≠ a := fun h => hav (h ▸ hy)
        have : y ∉ a :: u2 := by simp [hya, hyu]
        exact hdr a (by simp) y (List.mem_cons_of_mem a hy) this
    · refine ih (List.nodup_cons.mp hnd).2 (List.pairwise_cons.mp hp).2 ?_ ?_
      · intro x hx y hy hxu
        have hxa : x ≠ a := fun h => hav (h ▸ hx)
        have : x ∉ a :: u2 := by simp [hxa, hxu]
        exact hdl x (List.mem_cons_of_mem a hx) y (List.mem_cons_of_mem a hy) this
      · intro x hx y hy hyu
        have hya : y ≠ a := fun h => hav (h ▸ hy)
        have : y ∉ a :: u2 := by simp [hya, hyu]
        exact hdr x (List.mem_cons_of_mem a hx) y (List.mem_cons_of_mem a hy) this

/-! ### Unfolding moveItem on a valid drag index -/

theorem moveItem_eq_sort (l : List Todo) (i : Nat) (hov : Int)
    (fg tg : TodoGroup) (now : Nat) (t : Todo)
    (hd : (l.filter (groupPred fg now))[i]? = some t) :
    moveItem l i hov fg tg now =
      sortByCompare
        (posCompare (fun s => lastIdxOf s
          ((spliceInsert (l.filter (groupPred tg now)) hov
            (t.withDue (canonicalDue tg now))).map Todo.id)))
        (setDueAtNth (groupPred fg now) i (canonicalDue tg now) l) := by
  have hlen : i < (l.filter (groupPred fg now)).length :=
    (List.getElem?_eq_some_iff.mp hd).1
  rw [moveItem]
  rw [if_neg (by push_neg; constructor <;> omega)]
  have htn : (i : Int).toNat = i := Int.toNat_natCast i
  rw [htn, hd]

/-! ### The comparator of a same-index move sorts nothing -/

theorem idCompare_nonneg_of_le {pos : String → Option Nat} {x y : String}
    {ka kb : Nat} (hx : pos x = some ka) (hy : pos y = some kb) (h : ka ≤ kb) :
    0 ≤ idCompare pos y x := by
  simp only [idCompare, hx, hy]
  omega

theorem idCompare_nonneg_of_none_r {pos : String → Option Nat} {x y : String}
    (hx : pos x = none) : 0 ≤ idCompare pos y x := by
  cases hy : pos y <;> simp [idCompare, hx, hy]

theorem idCompare_nonneg_of_none_l {pos : String → Option Nat} {x y : String}
    (hy : pos y = none) : 0 ≤ idCompare pos y x := by
  cases hx : pos x <;> simp [idCompare, hx, hy]

theorem pairwise_idCompare_dup (I A B : List String) (d : String)
    (hsub : (A ++ d :: B).Sublist I) (hnd : I.Nodup) :
    I.Pairwise (fun x y =>
      0 ≤ idCompare (fun s => lastIdxOf s (A ++ d :: d :: B)) y x) := by
  have hndFI : (A ++ d :: B).Nodup := hnd.sublist hsub
  rw [List.nodup_append] at hndFI
  obtain ⟨hA, hdB, hdisj⟩ := hndFI
  have hdnB : d ∉ B := (List.nodup_cons.mp hdB).1
  have hB : B.Nodup := (List.nodup_cons.mp hdB).2
  have hqd : lastIdxOf d (A ++ d :: d :: B) = some (A.length + 1) := by
    have h0 : lastIdxOf d (d :: B) = some 0 := lastIdxOf_head_of_not_mem hdnB
    exact lastIdxOf_append_right (lastIdxOf_cons_shift h0) A
  have hqA : ∀ x ∈ A, lastIdxOf x (A ++ d :: d :: B) = lastIdxOf x A := by
    intro x hx
    have hxd : x ≠ d := fun h => hdisj hx (h ▸ List.mem_cons_self d B)
    have hxB : x ∉ B := fun h => hdisj hx (List.mem_cons_of_mem d h)
    have hnone : lastIdxOf x (d :: d :: B) = none := by
      rw [lastIdxOf_eq_none_iff]
      simp [Ne.symm hxd, hxd, hxB]
    exact lastIdxOf_append_left hnone A
  have hqB : ∀ x ∈ B, ∃ k, lastIdxOf x B = some k ∧
      lastIdxOf x (A ++ d :: d :: B) = some (A.length + (k + 2)) := by
    intro x hx
    obtain ⟨k, hk⟩ := lastIdxOf_isSome_of_mem hx
    refine ⟨k, hk, ?_⟩
    have h2 := lastIdxOf_cons_shift (y := d) (lastIdxOf_cons_shift (y := d) hk)
    exact lastIdxOf_append_right h2 A
  have hpwFI : (A ++ d :: B).Pairwise (fun x y =>
      0 ≤ idCompare (fun s => lastIdxOf s (A ++ d :: d :: B)) y x) := by
    rw [List.pairwise_append]
    refine ⟨?_, ?_, ?_⟩
    · refine (lastIdxOf_mono_of_nodup A hA).imp_of_mem ?_
      intro x y hx hy hmono
      obtain ⟨kx, hkx⟩ := lastIdxOf_isSome_of_mem hx
      obtain ⟨ky, hky⟩ := lastIdxOf_isSome_of_mem hy
      exact idCompare_nonneg_of_le ((hqA x hx).trans hkx) ((hqA y hy).trans hky)
        (hmono kx ky hkx hky).le
    · rw [List.pairwise_cons]
      constructor
      · intro y hy
        obtain ⟨k, _, hq⟩ := hqB y hy
        exact idCompare_nonneg_of_le hqd hq (by omega)
      · refine (lastIdxOf_mono_of_nodup B hB).imp_of_mem ?_
        intro x y hx hy hmono
        obtain ⟨kx, hkx, hqx⟩ := hqB x hx
        obtain ⟨ky, hky, hqy⟩ := hqB y hy
        exact idCompare_nonneg_of_le hqx hqy (by have := hmono kx ky hkx hky; omega)
    · intro x hx y hy
      obtain ⟨kx, hkx⟩ := lastIdxOf_isSome_of_mem hx
      have hkxlt : kx < A.length := lastIdxOf_lt_length hkx
      rcases List.mem_cons.mp hy with hyd | hyB
      · subst hyd
        exact idCompare_nonneg_of_le ((hqA x hx).trans hkx) hqd (by omega)
      · obtain ⟨ky, _, hqy⟩ := hqB y hyB
        exact idCompare_nonneg_of_le ((hqA x hx).trans hkx) hqy (by omega)
  refine pairwise_of_sublist_nodup hsub hnd hpwFI ?_ ?_
  · intro x _ y _ hxFI
    refine idCompare_nonneg_of_none_r ?_
    rw [lastIdxOf_eq_none_iff]
    intro hmem
    refine hxFI ?_
    rcases List.mem_append.mp hmem with h | h
    · exact List.mem_append_left _ h
    · rcases List.mem_cons.mp h with h1 | h1
      · exact List.mem_append_right _ (h1 ▸ List.mem_cons_self d B)
      · exact List.mem_append_right _ h1
  · intro x _ y _ hyFI
    refine idCompare_nonneg_of_none_l ?_
    rw [lastIdxOf_eq_none_iff]
    intro hmem
    refine hyFI ?_
    rcases List.mem_append.mp hmem with h | h
    · exact List.mem_append_left _ h
    · rcases List.mem_cons.mp h with h1 | h1
      · exact List.mem_append_right _ (h1 ▸ List.mem_cons_self d B)
      · exact List.mem_append_right _ h1

/-! ### A same-group, same-index move only rewrites the due date -/

theorem spliceInsert_map_id_self (F : List Todo) (i : Nat) (t : Todo) (c : Nat)
    (hlen : i < F.length) (ht : F[i] = t) :
    (spliceInsert F (i : Int) (t.withDue c)).map Todo.id =
      (F.take i).map Todo.id ++ t.id :: t.id :: (F.drop (i + 1)).map Todo.id := by
  have hn : jsSpliceIdx F.length (i : Int) = i := by
    rw [jsSpliceIdx, if_neg (by omega), Int.toNat_natCast]
    omega
  have hdrop : F.drop i = t :: F.drop (i + 1) := by
    rw [List.drop_eq_getElem_cons hlen, ht]
  simp only [spliceInsert, hn, hdrop]
  simp [Todo.withDue]

theorem filter_map_id_split (F : List Todo) (i : Nat) (t : Todo)
    (hlen : i < F.length) (ht : F[i] = t) :
    F.map Todo.id = (F.take i).map Todo.id ++ t.id :: (F.drop (i + 1)).map Todo.id := by
  have hdrop : F.drop i = t :: F.drop (i + 1) := by
    rw [List.drop_eq_getElem_cons hlen, ht]
  conv_lhs => rw [← List.take_append_drop i F, hdrop]
  simp

theorem moveItem_same_index (l : List Todo) (i : Nat) (g : TodoGroup) (now : Nat)
    (hNd : (l.map Todo.id).Nodup)
    (hi : i < (l.filter (groupPred g now)).length) :
    moveItem l i i g g now =
      setDueAtNth (groupPred g now) i (canonicalDue g now) l := by
  have hd : (l.filter (groupPred g now))[i]? = some (l.filter (groupPred g now))[i] :=
    List.getElem?_eq_getElem hi
  rw [moveItem_eq_sort l i i g g now _ hd]
  apply sortByCompare_eq_self
  rw [spliceInsert_map_id_self _ i _ (canonicalDue g now) hi rfl]
  have hsubFI : ((l.filter (groupPred g now)).take i).map Todo.id
      ++ (l.filter (groupPred g now))[i].id
        :: ((l.filter (groupPred g now)).drop (i + 1)).map Todo.id
      |>.Sublist (l.map Todo.id) := by
    rw [← filter_map_id_split _ i _ hi rfl]
    exact (List.filter_sublist l).map Todo.id
  have hpw := pairwise_idCompare_dup (l.map Todo.id) _ _ _ hsubFI hNd
  rw [← setDueAtNth_map_id (groupPred g now) (canonicalDue g now) l i] at hpw
  exact List.pairwise_map.mp hpw

/-! ### moveItem output as a permutation of the due-date update -/

theorem moveItem_perm_setDue (l : List Todo) (i : Nat) (hov : Int)
    (fg tg : TodoGroup) (now : Nat) (t : Todo)
    (hd : (l.filter (groupPred fg now))[i]? = some t) :
    (moveItem l i hov fg tg now).Perm
      (setDueAtNth (groupPred fg now) i (canonicalDue tg now) l) := by
  rw [moveItem_eq_sort l i hov fg tg now t hd]
  exact sortByCompare_perm _ _

/-! ### The three group predicates partition any list -/

theorem partitionConcat_perm (l : List Todo) (now : Nat) :
    (partitionConcat l now).Perm l := by
  have htm : l.filter (groupPred .tomorrow now)
      = (l.filter (fun t => !groupPred .today now t)).filter (groupPred .tomorrow now) := by
    rw [List.filter_filter]
    refine (List.filter_congr ?_).symm
    intro t ht
    cases hp1 : groupPred .today now t with
    | false => simp
    | true =>
      have h2 : groupPred .tomorrow now t = false :=
        groupPred_disjoint (by simp) hp1
      simp [h2]
  have hup : l.filter (groupPred .upcoming now)
      = (l.filter (fun t => !groupPred .today now t)).filter
          (fun t => !groupPred .tomorrow now t) := by
    rw [List.filter_filter]
    refine (List.filter_congr ?_).symm
    intro t ht
    show (!groupPred .tomorrow now t && !groupPred .today now t)
      = groupPred .upcoming now t
    show (!groupPred .tomorrow now t && !groupPred .today now t)
      = (!isDueOrOverdue t now && !isTomorrow t.dueDate now)
    cases h1 : isDueOrOverdue t now <;> cases h2 : isTomorrow t.dueDate now <;>
      simp_all [groupPred]
  rw [partitionConcat, htm, hup, List.append_assoc]
  exact (List.Perm.append_left _
      (List.filter_append_perm (groupPred .tomorrow now) _)).trans
    (List.filter_append_perm (groupPred .today now) l)

/-! ### Where the moved task lands in the destination snapshot -/

theorem jsSpliceIdx_le (len : Nat) (k : Int) : jsSpliceIdx len k ≤ len := by
  rw [jsSpliceIdx]
  split <;> omega

theorem lastIdxOf_spliceInsert (F : List Todo) (k : Int) (x : Todo)
    (hx : x.id ∉ F.map Todo.id) :
    lastIdxOf x.id ((spliceInsert F k x).map Todo.id)
      = some (jsSpliceIdx F.length k) := by
  have hle : jsSpliceIdx F.length k ≤ F.length := jsSpliceIdx_le F.length k
  have hdropnot : x.id ∉ (F.drop (jsSpliceIdx F.length k)).map Todo.id := by
    intro h
    exact hx (((List.drop_sublist _ _).map Todo.id).subset h)
  simp only [spliceInsert, List.map_append, List.map_cons]
  rw [lastIdxOf_append_right (lastIdxOf_head_of_not_mem hdropnot)]
  simp [List.length_take, Nat.min_eq_left hle]

theorem not_mem_dest_ids (l : List Todo) (i : Nat) (fg tg : TodoGroup) (now : Nat)
    (t : Todo) (hne : fg ≠ tg) (hNd : (l.map Todo.id).Nodup)
    (hd : (l.filter (groupPred fg now))[i]? = some t) :
    t.id ∉ (l.filter (groupPred tg now)).map Todo.id := by
  intro hmem
  obtain ⟨u, hu, hid⟩ := List.mem_map.mp hmem
  have hufil := List.mem_filter.mp hu
  have htfil := List.mem_filter.mp (List.getElem?_mem hd)
  have hut : u = t :=
    List.inj_on_of_nodup_map hNd hufil.1 htfil.1 hid
  have := groupPred_disjoint hne htfil.2
  rw [hut] at hufil
  simp [this] at hufil

/-! ## Claim theorems -/

/-- Claim C1, counterexample: a valid move of the only `upcoming` task
into `today` at index 1 produces a list that is not reproduced by
partitioning into the three groups and concatenating in group order
(the comparator never reorders tasks across group boundaries, so the
moved task stays behind the `tomorrow` task in the master list). -/
theorem moveItem_group_order_cex :
    (([⟨"a", "A", false, 500⟩, ⟨"b", "B", false, 1500⟩,
        ⟨"x", "X", false, 20000⟩] : List Todo).filter
      (groupPred .upcoming 1000)).length = 1
    ∧ partitionConcat (moveItem [⟨"a", "A", false, 500⟩, ⟨"b", "B", false, 1500⟩,
          ⟨"x", "X", false, 20000⟩] 0 1 .upcoming .today 1000) 1000
      ≠ moveItem [⟨"a", "A", false, 500⟩, ⟨"b", "B", false, 1500⟩,
          ⟨"x", "X", false, 20000⟩] 0 1 .upcoming .today 1000 := by
  decide

/-- Claim C1, amended: for every task list and capture of the clock, the
three group predicates are mutually exclusive and exhaustive, so
partitioning any list (in particular any output of the reorder engine)
by them and concatenating in group order yields a permutation of that
list — but not necessarily the list itself. -/
theorem partitionConcat_perm_self (l : List Todo) (now : Nat) :
    (partitionConcat l now).Perm l :=
  partitionConcat_perm l now

/-- Claim C2, code evaluated at the failing input: with
`L = [A(today), B(today), C(tomorrow)]`, moving index 0 to index 1
inside `today` leaves the order `[A, B, C]` (the destination snapshot
still holds the dragged task, so the last-wins position map puts the
dragged task back in front of its follower) instead of the intended
`[B, A, C]`; only `A`'s due date is rewritten to `now`. -/
theorem moveItem_today_swap_eval :
    (moveItem [⟨"a", "A", false, 500⟩, ⟨"b", "B", false, 900⟩,
        ⟨"c", "C", false, 1500⟩] 0 1 .today .today 1000).map Todo.id
      = ["a", "b", "c"]
    ∧ (moveItem [⟨"a", "A", false, 500⟩, ⟨"b", "B", false, 900⟩,
        ⟨"c", "C", false, 1500⟩] 0 1 .today .today 1000).map Todo.id
      ≠ ["b", "a", "c"] := by
  decide

/-- Claim C3, counterexample: a move with equal source and destination
groups still rewrites the moved task's due date (here from 0 to the
canonical `today` date 1440), so a due date can change even when
`sourceGroup = destGroup`. -/
theorem moveItem_conservation_cex :
    (moveItem [⟨"a", "A", false, 0⟩] 0 0 .today .today 1440).map Todo.dueDate
      = [1440]
    ∧ ([⟨"a", "A", false, 0⟩] : List Todo).map Todo.dueDate = [0] := by
  decide

/-- Claim C3, amended: for every list and valid move, the output of the
reorder engine is a permutation of the input with the dragged task's due
date rewritten to the canonical date of the destination group (this can
happen also when the groups coincide), the length is preserved, and no
task is added or removed (the id/text/completed records are a
permutation of the input's). -/
theorem moveItem_conservation (l : List Todo) (i : Nat) (hov : Int)
    (fg tg : TodoGroup) (now : Nat)
    (hi : i < (l.filter (groupPred fg now)).length) :
    (moveItem l i hov fg tg now).Perm
        (setDueAtNth (groupPred fg now) i (canonicalDue tg now) l)
    ∧ (moveItem l i hov fg tg now).length = l.length
    ∧ ((moveItem l i hov fg tg now).map Todo.stripDue).Perm
        (l.map Todo.stripDue) := by
  have hd : (l.filter (groupPred fg now))[i]?
      = some (l.filter (groupPred fg now))[i] := List.getElem?_eq_getElem hi
  have hperm := moveItem_perm_setDue l i hov fg tg now _ hd
  refine ⟨hperm, ?_, ?_⟩
  · rw [hperm.length_eq, setDueAtNth_length]
  · have h2 := hperm.map Todo.stripDue
    rw [setDueAtNth_map_stripDue] at h2
    exact h2

/-- Witness for the amended Claim C3 at a concrete valid move. -/
theorem moveItem_conservation_witness :
    (moveItem [⟨"w", "W", false, 3⟩] 0 2 .today .today 7).Perm
        (setDueAtNth (groupPred .today 7) 0 (canonicalDue .today 7)
          [⟨"w", "W", false, 3⟩])
    ∧ (moveItem [⟨"w", "W", false, 3⟩] 0 2 .today .today 7).length
      = ([⟨"w", "W", false, 3⟩] : List Todo).length
    ∧ ((moveItem [⟨"w", "W", false, 3⟩] 0 2 .today .today 7).map Todo.stripDue).Perm
        (([⟨"w", "W", false, 3⟩] : List Todo).map Todo.stripDue) :=
  moveItem_conservation [⟨"w", "W", false, 3⟩] 0 2 .today .today 7 (by decide)

/-- Claim C4, counterexample: a same-group move (both groups `today`)
changes the moved task's due date from 100 to 3000, so the due date is
not left unchanged when `sourceGroup = destGroup`. -/
theorem moveItem_same_group_due_cex :
    (moveItem [⟨"b", "B", false, 100⟩] 0 0 .today .today 3000).map Todo.dueDate
      = [3000]
    ∧ ([⟨"b", "B", false, 100⟩] : List Todo).map Todo.dueDate = [100] := by
  decide

/-- Claim C4, amended: for every valid same-group move the dragged task
appears in the output with its due date rewritten to the canonical date
of the group (`now`, `now` + 1 day, or `now` + 7 days), which keeps it
inside the same group; the due date is unchanged only when it already
equals that canonical date. -/
theorem moveItem_same_group_canonicalDue (l : List Todo) (i : Nat) (hov : Int)
    (g : TodoGroup) (now : Nat) (t : Todo)
    (hd : (l.filter (groupPred g now))[i]? = some t) :
    t.withDue (canonicalDue g now) ∈ moveItem l i hov g g now
    ∧ groupPred g now (t.withDue (canonicalDue g now)) = true :=
  ⟨(moveItem_perm_setDue l i hov g g now t hd).mem_iff.mpr
      (setDueAtNth_mem (groupPred g now) (canonicalDue g now) l i t hd),
    canonicalDue_mem_group g now t⟩

/-- Witness for the amended Claim C4 at a concrete same-group move. -/
theorem moveItem_same_group_canonicalDue_witness :
    Todo.withDue ⟨"a", "A", false, 0⟩ (canonicalDue .today 1440)
        ∈ moveItem [⟨"a", "A", false, 0⟩] 0 5 .today .today 1440
    ∧ groupPred .today 1440
        (Todo.withDue ⟨"a", "A", false, 0⟩ (canonicalDue .today 1440)) = true :=
  moveItem_same_group_canonicalDue [⟨"a", "A", false, 0⟩] 0 5 .today 1440
    ⟨"a", "A", false, 0⟩ (by decide)

/-- Claim C5, counterexample: a same-group move at the same index is not
the identity — the single `today` task keeps its position but its due
date is rewritten from 0 to the canonical `today` date. -/
theorem moveItem_same_index_cex :
    moveItem [⟨"c", "T", false, 0⟩] 0 0 .today .today 2000
      ≠ [⟨"c", "T", false, 0⟩] := by
  decide

/-- Claim C5, amended: assuming the task ids are distinct (as the data
model requires), a move with equal groups and equal source and
destination index returns the input list with only the moved task's due
date rewritten to the canonical date of the group; in particular it
equals the input exactly when that due date already was canonical. -/
theorem moveItem_same_index_noop (l : List Todo) (i : Nat) (g : TodoGroup)
    (now : Nat) (hNd : (l.map Todo.id).Nodup)
    (hi : i < (l.filter (groupPred g now)).length) :
    moveItem l i i g g now
      = setDueAtNth (groupPred g now) i (canonicalDue g now) l :=
  moveItem_same_index l i g now hNd hi

/-- Witness for the amended Claim C5 at a concrete same-index move. -/
theorem moveItem_same_index_noop_witness :
    moveItem [⟨"d", "D", false, 1500⟩] 0 0 .tomorrow .tomorrow 100
      = setDueAtNth (groupPred .tomorrow 100) 0 (canonicalDue .tomorrow 100)
          [⟨"d", "D", false, 1500⟩] :=
  moveItem_same_index_noop [⟨"d", "D", false, 1500⟩] 0 .tomorrow 100
    (by decide) (by decide)

/-- Claim C6, confirmed: a drag index that is negative or at least the
size of the source-group snapshot makes the reorder engine return the
input list itself, unchanged, for every hover index and destination
group. -/
theorem moveItem_invalid_index (l : List Todo) (di hov : Int)
    (fg tg : TodoGroup) (now : Nat)
    (hbad : di < 0 ∨ ((l.filter (groupPred fg now)).length : Int) ≤ di) :
    moveItem l di hov fg tg now = l := by
  rw [moveItem, if_pos hbad]

/-- Witness for Claim C6 at a concrete negative drag index. -/
theorem moveItem_invalid_index_witness :
    moveItem [⟨"e", "E", false, 2⟩] (-1) 0 .today .tomorrow 5
      = [⟨"e", "E", false, 2⟩] :=
  moveItem_invalid_index [⟨"e", "E", false, 2⟩] (-1) 0 .today .tomorrow 5
    (Or.inl (by decide))

/-- Claim C7, confirmed: on a valid cross-group move the dragged task
appears in the output with its due date set to the canonical date of the
destination group, that date satisfies the destination group's
predicate (so a task moved from `upcoming` to `today` is in `today`
immediately after), and the canonical dates are the current instant,
one day later, and seven days later respectively. -/
theorem moveItem_cross_group_canonicalDue (l : List Todo) (i : Nat) (hov : Int)
    (fg tg : TodoGroup) (now : Nat) (t : Todo) (hne : fg ≠ tg)
    (hd : (l.filter (groupPred fg now))[i]? = some t) :
    t.withDue (canonicalDue tg now) ∈ moveItem l i hov fg tg now
    ∧ groupPred tg now (t.withDue (canonicalDue tg now)) = true
    ∧ canonicalDue TodoGroup.today now = now
    ∧ canonicalDue TodoGroup.tomorrow now = now + minutesPerDay
    ∧ canonicalDue TodoGroup.upcoming now = now + 7 * minutesPerDay :=
  ⟨(moveItem_perm_setDue l i hov fg tg now t hd).mem_iff.mpr
      (setDueAtNth_mem (groupPred fg now) (canonicalDue tg now) l i t hd),
    canonicalDue_mem_group tg now t, rfl, rfl, rfl⟩

/-- Witness for Claim C7: the only `upcoming` task moved into `today`. -/
theorem moveItem_cross_group_canonicalDue_witness :
    Todo.withDue ⟨"x", "X", false, 20000⟩ (canonicalDue .today 1000)
        ∈ moveItem [⟨"x", "X", false, 20000⟩] 0 0 .upcoming .today 1000
    ∧ groupPred .today 1000
        (Todo.withDue ⟨"x", "X", false, 20000⟩ (canonicalDue .today 1000)) = true
    ∧ canonicalDue TodoGroup.today 1000 = 1000
    ∧ canonicalDue TodoGroup.tomorrow 1000 = 1000 + minutesPerDay
    ∧ canonicalDue TodoGroup.upcoming 1000 = 1000 + 7 * minutesPerDay :=
  moveItem_cross_group_canonicalDue [⟨"x", "X", false, 20000⟩] 0 0
    .upcoming .today 1000 ⟨"x", "X", false, 20000⟩ (by decide) (by decide)

/-- Claim C8, counterexample: the destination group holds `[p, q]` and
the move uses destination index -1; the moved task `x` ends up at
position 1 of the destination group (JavaScript splice counts a
negative start from the end), not at position 0 as the claim states. -/
theorem moveItem_negative_dest_cex :
    (([⟨"p", "P", false, 100⟩, ⟨"q", "Q", false, 200⟩,
        ⟨"x", "X", false, 1500⟩] : List Todo).filter
          (groupPred .today 1000)).map Todo.id = ["p", "q"]
    ∧ ((moveItem [⟨"p", "P", false, 100⟩, ⟨"q", "Q", false, 200⟩,
        ⟨"x", "X", false, 1500⟩] 0 (-1) .tomorrow .today 1000).filter
          (groupPred .today 1000)).map Todo.id = ["p", "x", "q"] := by
  decide

/-- Claim C8, amended: on a valid cross-group move (with distinct task
ids) the engine inserts the moved task into the destination-group
snapshot at the position `Array.prototype.splice` derives from
`destIndex`: an index at or beyond the group size is clamped to append
at the end, and a negative index counts back from the end of the group,
floored at 0 (not clamped to position 0); the position map records the
moved task exactly there. -/
theorem moveItem_splice_pos (l : List Todo) (i : Nat) (hov : Int)
    (fg tg : TodoGroup) (now : Nat) (t : Todo) (hne : fg ≠ tg)
    (hNd : (l.map Todo.id).Nodup)
    (hd : (l.filter (groupPred fg now))[i]? = some t) :
    lastIdxOf t.id ((spliceInsert (l.filter (groupPred tg now)) hov
        (t.withDue (canonicalDue tg now))).map Todo.id)
      = some (jsSpliceIdx (l.filter (groupPred tg now)).length hov)
    ∧ (((l.filter (groupPred tg now)).length : Int) ≤ hov →
        jsSpliceIdx (l.filter (groupPred tg now)).length hov
          = (l.filter (groupPred tg now)).length)
    ∧ (hov < 0 →
        (jsSpliceIdx (l.filter (groupPred tg now)).length hov : Int)
          = max (((l.filter (groupPred tg now)).length : Int) + hov) 0) := by
  have hnm : (t.withDue (canonicalDue tg now)).id
      ∉ (l.filter (groupPred tg now)).map Todo.id := by
    have hn := not_mem_dest_ids l i fg tg now t hne hNd hd
    simpa [Todo.withDue] using hn
  refine ⟨?_, ?_, ?_⟩
  · have hsp := lastIdxOf_spliceInsert (l.filter (groupPred tg now)) hov
      (t.withDue (canonicalDue tg now)) hnm
    simpa [Todo.withDue] using hsp
  · intro h
    rw [jsSpliceIdx, if_neg (by omega)]
    omega
  · intro h
    rw [jsSpliceIdx, if_pos h]
    omega

/-- Witness for the amended Claim C8 at a concrete overlong index. -/
theorem moveItem_splice_pos_witness :
    lastIdxOf (Todo.id ⟨"x", "X", false, 1500⟩)
        ((spliceInsert (([⟨"p", "P", false, 100⟩, ⟨"x", "X", false, 1500⟩] :
            List Todo).filter (groupPred .today 1000)) 5
          (Todo.withDue ⟨"x", "X", false, 1500⟩ (canonicalDue .today 1000))).map
            Todo.id)
      = some (jsSpliceIdx (([⟨"p", "P", false, 100⟩, ⟨"x", "X", false, 1500⟩] :
          List Todo).filter (groupPred .today 1000)).length 5)
    ∧ ((((([⟨"p", "P", false, 100⟩, ⟨"x", "X", false, 1500⟩] :
          List Todo).filter (groupPred .today 1000)).length : Int) ≤ 5) →
        jsSpliceIdx (([⟨"p", "P", false, 100⟩, ⟨"x", "X", false, 1500⟩] :
            List Todo).filter (groupPred .today 1000)).length 5
          = (([⟨"p", "P", false, 100⟩, ⟨"x", "X", false, 1500⟩] :
              List Todo).filter (groupPred .today 1000)).length)
    ∧ ((5 : Int) < 0 →
        (jsSpliceIdx (([⟨"p", "P", false, 100⟩, ⟨"x", "X", false, 1500⟩] :
            List Todo).filter (groupPred .today 1000)).length 5 : Int)
          = max ((((([⟨"p", "P", false, 100⟩, ⟨"x", "X", false, 1500⟩] :
              List Todo).filter (groupPred .today 1000)).length) : Int) + 5) 0) :=
  moveItem_splice_pos [⟨"p", "P", false, 100⟩, ⟨"x", "X", false, 1500⟩] 0 5
    .tomorrow .today 1000 ⟨"x", "X", false, 1500⟩ (by decide) (by decide)
    (by decide)

/-- Claim C9, confirmed: toggling the same id twice restores the list
exactly; a single toggle preserves the list order and the id, text and
due date of every task pointwise, leaves tasks with a different id
untouched, and flips exactly the completed flag of tasks whose id
matches. -/
theorem toggleTodo_props (l : List Todo) (i : String) :
    toggleTodo (toggleTodo l i) i = l
    ∧ (toggleTodo l i).map (fun t => (t.id, t.text, t.dueDate))
      = l.map (fun t => (t.id, t.text, t.dueDate))
    ∧ (∀ (k : Nat) (t : Todo), l[k]? = some t → t.id ≠ i →
        (toggleTodo l i)[k]? = some t)
    ∧ (∀ (k : Nat) (t : Todo), l[k]? = some t → t.id = i →
        (toggleTodo l i)[k]? = some ⟨t.id, t.text, !t.completed, t.dueDate⟩) := by
  refine ⟨?_, ?_, ?_, ?_⟩
  · induction l with
    | nil => rfl
    | cons t ts ih =>
      obtain ⟨tid, ttext, tc, td⟩ := t
      by_cases h : tid = i <;>
        simp_all [toggleTodo]
  · induction l with
    | nil => rfl
    | cons t ts ih =>
      obtain ⟨tid, ttext, tc, td⟩ := t
      by_cases h : tid = i <;>
        simp_all [toggleTodo]
  · intro k t hk hne
    rw [toggleTodo, List.getElem?_map, hk]
    simp [hne]
  · intro k t hk heq
    rw [toggleTodo, List.getElem?_map, hk]
    simp [heq]

/-- Witness for Claim C9 on a concrete two-task list. -/
theorem toggleTodo_props_witness :
    toggleTodo (toggleTodo [⟨"a", "A", false, 1⟩, ⟨"b", "B", true, 2⟩] "b") "b"
      = [⟨"a", "A", false, 1⟩, ⟨"b", "B", true, 2⟩]
    ∧ (toggleTodo [⟨"a", "A", false, 1⟩, ⟨"b", "B", true, 2⟩] "b")[0]?
      = some ⟨"a", "A", false, 1⟩
    ∧ (toggleTodo [⟨"a", "A", false, 1⟩, ⟨"b", "B", true, 2⟩] "b")[1]?
      = some ⟨"b", "B", !true, 2⟩ :=
  ⟨(toggleTodo_props [⟨"a", "A", false, 1⟩, ⟨"b", "B", true, 2⟩] "b").1,
    (toggleTodo_props [⟨"a", "A", false, 1⟩, ⟨"b", "B", true, 2⟩] "b").2.2.1 0
      ⟨"a", "A", false, 1⟩ (by decide) (by decide),
    (toggleTodo_props [⟨"a", "A", false, 1⟩, ⟨"b", "B", true, 2⟩] "b").2.2.2 1
      ⟨"b", "B", true, 2⟩ (by decide) (by decide)⟩

/-- Claim C10, confirmed: submitting text that trims to the empty string
leaves the list unchanged; non-blank text appends exactly one task at
the end, uncompleted, carrying the given (untrimmed) text, id and due
date, and keeps every existing task and their order as a prefix. -/
theorem addTodo_spec (l : List Todo) (text newId : String) (due : Nat) :
    (jsTrim text = "" → addTodo l text newId due = l)
    ∧ (jsTrim text ≠ "" →
        (addTodo l text newId due).length = l.length + 1
        ∧ (addTodo l text newId due).take l.length = l
        ∧ (addTodo l text newId due)[l.length]? = some ⟨newId, text, false, due⟩) := by
  constructor
  · intro h
    rw [addTodo, if_neg (by simp [h])]
  · intro h
    rw [addTodo, if_pos h]
    refine ⟨by simp, List.take_left l _, ?_⟩
    rw [List.getElem?_append_right (Nat.le_refl _)]
    simp

/-- Witness for Claim C10: a blank submission and a real one. -/
theorem addTodo_spec_witness :
    addTodo [⟨"a", "A", false, 1⟩] " " "i1" 0 = [⟨"a", "A", false, 1⟩]
    ∧ (addTodo [⟨"a", "A", false, 1⟩] "hi" "i2" 9).length
      = ([⟨"a", "A", false, 1⟩] : List Todo).length + 1
    ∧ (addTodo [⟨"a", "A", false, 1⟩] "hi" "i2" 9)[([⟨"a", "A", false, 1⟩] :
        List Todo).length]? = some ⟨"i2", "hi", false, 9⟩ :=
  ⟨(addTodo_spec [⟨"a", "A", false, 1⟩] " " "i1" 0).1 (by decide),
    ((addTodo_spec [⟨"a", "A", false, 1⟩] "hi" "i2" 9).2 (by decide)).1,
    ((addTodo_spec [⟨"a", "A", false, 1⟩] "hi" "i2" 9).2 (by decide)).2.2⟩
